import Mathlib

/-!
# Parallel butterfly FFT (`fft_parallel.cpp`)

A shallow embedding of the UPC++ program and proofs about it.

Conventions of the embedding.

* `int` values are mathematical integers.  `reverseBits` is modelled with the 32-bit
  behaviour of its shifts: a left shift is reduced to the range of `int` by `wrapInt`, a right
  shift is arithmetic, and a shift count outside `[0, 32)` has no defined result (`none`).
  The index arithmetic of `main` stays inside the range of `int` whenever `input_size` is an
  `int`, so it is written without reduction.
* A shared array is a map from offsets (relative to the base pointer returned by
  `upcxx::new_array`) to values.  An access at an offset outside `[0, input_size)` is modelled
  as an access to a cell of its own at that offset, distinct from every cell inside either
  array.  In the same way a read of `global::input` past the end of the vector yields an
  unconstrained value `beyond idx`.
* Real arithmetic is exact: the functions are written over an arbitrary field `α` with
  `pi`, `cos` and `sin` supplied by the caller, and the theorems instantiate `α` with `ℝ`.
* One iteration of the stage loop is the function `stage`: every rank fills its temporary
  buffers from the arrays as they were when the iteration started, then the ranks commit
  their buffers.  This is the order that the barrier between the two phases enforces; the
  slices of distinct ranks are disjoint, so the order of the commits among ranks is immaterial.
-/

namespace FFTParallel

/-! ## Machine integers -/

/-- Reduction of an integer modulo `2^32` to the range `[-2^31, 2^31)` of `int`. -/
def wrapInt (z : Int) : Int := (z + 2147483648) % 4294967296 - 2147483648

/-- The C++ expression `a >> n` on `int`: arithmetic shift, undefined unless `0 ≤ n < 32`. -/
def shiftRightInt (a n : Int) : Option Int :=
  if 0 ≤ n ∧ n < 32 then some (a >>> n.toNat) else none

/-- The C++ expression `a << n` on `int`: the value congruent to `a * 2^n` modulo `2^32`,
undefined unless `0 ≤ n < 32`. -/
def shiftLeftInt (a n : Int) : Option Int :=
  if 0 ≤ n ∧ n < 32 then some (wrapInt (a <<< n)) else none

/-! ## `reverseBits` -/

/-- The loop of `reverseBits`: `steps` iterations are left, `i` is the loop counter and
`reverse_number` the accumulator; each iteration executes
`reverse_number |= ((number >> i) & 1) << (bit_range - 1 - i)`. -/
def reverseBitsLoop (number bit_range : Int) : Nat → Int → Int → Option Int
  | 0, _, reverse_number => some reverse_number
  | steps + 1, i, reverse_number =>
    match shiftRightInt number i with
    | none => none
    | some shifted =>
      match shiftLeftInt (Int.land shifted 1) (bit_range - 1 - i) with
      | none => none
      | some bit => reverseBitsLoop number bit_range steps (i + 1) (Int.lor reverse_number bit)

/-- The function `int reverseBits(int number, int bit_range)`: the loop runs for
`i = 0, ..., bit_range - 1`, starting from `reverse_number = 0`. -/
def reverseBits (number bit_range : Int) : Option Int :=
  reverseBitsLoop number bit_range bit_range.toNat 0 0

/-! ## Shared arrays and input -/

/-- The two shared arrays `seq_real` and `seq_img`, each a map from offsets to values. -/
structure Shared (α : Type) where
  seq_real : Int → α
  seq_img : Int → α

/-- The call `upcxx::rput(value, cells + i).wait()`. -/
def rput {α : Type} (value : α) (cells : Int → α) (i : Int) : Int → α :=
  fun j => if j = i then value else cells j

/-- The call `upcxx::rget(cells + i).wait()`. -/
def rget {α : Type} (cells : Int → α) (i : Int) : α := cells i

/-- The expression `global::input[idx]`. -/
def readInput {α : Type} (input : List α) (beyond : Int → α) (idx : Int) : α :=
  if 0 ≤ idx then input.getD idx.toNat (beyond idx) else beyond idx

/-- The conversion `int x = std::log2f(n)` for `n ≥ 1`: the integer part of the base-2
logarithm.  On the sizes considered here (`2^k` and `2^k + 1` with `k ≤ 30`) the
single-precision result truncates to exactly this value. -/
def log2f (n : Int) : Int := Nat.log 2 n.toNat

/-- The seeding loop of `main` (run by rank 0): `steps` iterations are left and `i` is the
loop counter; each iteration stores `input[reverseBits(i - 1, max_bit_width) + 1]` into
`seq_real[i]` and `0` into `seq_img[i]`. -/
def seedLoop {α : Type} [Zero α] (input : List α) (beyond : Int → α) (max_bit_width : Int) :
    Nat → Int → Shared α → Option (Shared α)
  | 0, _, st => some st
  | steps + 1, i, st =>
    match reverseBits (i - 1) max_bit_width with
    | none => none
    | some r =>
      seedLoop input beyond max_bit_width steps (i + 1)
        { seq_real := rput (readInput input beyond (r + 1)) st.seq_real i,
          seq_img := rput 0 st.seq_img i }

/-- Seeding of the shared arrays: `max_bit_width = log2f(input_size)` and the loop runs for
`i = 0, ..., input_size - 1`; `init` is the content of the freshly allocated arrays. -/
def seed {α : Type} [Zero α] (input : List α) (beyond : Int → α) (input_size : Int)
    (init : Shared α) : Option (Shared α) :=
  seedLoop input beyond (log2f input_size) input_size.toNat 0 init

/-! ## One butterfly stage -/

/-- The constant `values_per_process = input_size / slave_count` (C++ integer division). -/
def values_per_process (input_size slave_count : Int) : Int := Int.tdiv input_size slave_count

/-- The index `b_rank = (rank - 1) * values_per_process + b + 1`. -/
def b_rank (rank values_per_process b : Int) : Int := (rank - 1) * values_per_process + b + 1

/-- The value `is_even = ((b_rank + div - 1) / div) % 2`. -/
def is_even (b_rank div : Int) : Int := Int.tmod (Int.tdiv (b_rank + div - 1) div) 2

/-- The value `is_odd = 1 - is_even`. -/
def is_odd (b_rank div : Int) : Int := 1 - is_even b_rank div

/-- The offset `b_rank - (div * is_odd)` of the reads `seq_real_odd` and `seq_img_odd`. -/
def odd_partner (b_rank div : Int) : Int := b_rank - div * is_odd b_rank div

/-- The offset `b_rank + (div * is_even)` of the reads `seq_real_even` and `seq_img_even`. -/
def even_partner (b_rank div : Int) : Int := b_rank + div * is_even b_rank div

/-- The angle `butterfly_index = M_PI * ((b_rank - 1) % (div * 2)) / div`. -/
def butterfly_index {α : Type} [Field α] (pi : α) (b_rank div : Int) : α :=
  pi * ((Int.tmod (b_rank - 1) (div * 2) : Int) : α) / ((div : Int) : α)

/-- The body of the compute loop for one `b_rank`: the four reads and the pair
`(temp_real[b], temp_img[b])`. -/
def butterflyNode {α : Type} [Field α] (pi : α) (cos sin : α → α) (st : Shared α)
    (div b_rank : Int) : α × α :=
  let seq_real_odd := rget st.seq_real (odd_partner b_rank div)
  let seq_real_even := rget st.seq_real (even_partner b_rank div)
  let seq_img_odd := rget st.seq_img (odd_partner b_rank div)
  let seq_img_even := rget st.seq_img (even_partner b_rank div)
  let angle := butterfly_index pi b_rank div
  (seq_real_odd + (cos angle * seq_real_even) + (sin angle * seq_img_even),
   seq_img_odd + (cos angle * seq_img_even) - (sin angle * seq_real_even))

/-- The compute phase of one process: the buffers `temp_real` and `temp_img`, filled for
`b = 0, ..., values_per_process - 1` when `rank != 0` and left zero-initialised otherwise. -/
def computePhase {α : Type} [Field α] (pi : α) (cos sin : α → α) (st : Shared α)
    (rank values_per_process div : Int) : List α × List α :=
  if rank ≠ 0 then
    ((List.range values_per_process.toNat).map (fun (b : Nat) =>
        (butterflyNode pi cos sin st div (b_rank rank values_per_process (b : Int))).1),
     (List.range values_per_process.toNat).map (fun (b : Nat) =>
        (butterflyNode pi cos sin st div (b_rank rank values_per_process (b : Int))).2))
  else
    (List.replicate values_per_process.toNat 0, List.replicate values_per_process.toNat 0)

/-- The commit loop of one process (executed by every rank): for
`b = 0, ..., values_per_process - 1` it stores `temp_real[b]` and `temp_img[b]` at `b_rank`. -/
def commitPhase {α : Type} [Zero α] (rank values_per_process : Int) (temp_real temp_img : List α)
    (st : Shared α) : Shared α :=
  (List.range values_per_process.toNat).foldl (fun acc (b : Nat) =>
    { seq_real := rput (temp_real.getD b 0) acc.seq_real (b_rank rank values_per_process (b : Int)),
      seq_img := rput (temp_img.getD b 0) acc.seq_img (b_rank rank values_per_process (b : Int)) })
    st

/-- The loop `for (div = 1, key = ...; key > 0; key--, div *= 2)` with an arbitrary body. -/
def stageLoop {σ : Type} (body : Int → σ → σ) : Nat → Int → σ → σ
  | 0, _, st => st
  | key + 1, div, st => stageLoop body key (div * 2) (body div st)

/-- The stage loop of `main` run with a body that only records `div`: the list of spans of
the executed stages, in order. -/
def stagesExecuted (input_size : Int) : List Int :=
  stageLoop (fun div log => log ++ [div]) (log2f (input_size - 1)).toNat 1 []

/-- The indices `b_rank` visited by the loops of process `rank`. -/
def ownedIndices (rank values_per_process : Int) : List Int :=
  (List.range values_per_process.toNat).map (fun (b : Nat) => b_rank rank values_per_process (b : Int))

/-- Every index of `1..N` belongs to the slice of exactly one worker rank. -/
def covers (process_count values_per_process N : Int) : Prop :=
  ∀ i : Int, 1 ≤ i → i ≤ N →
    ∃! rank : Int, 1 ≤ rank ∧ rank < process_count ∧ i ∈ ownedIndices rank values_per_process

/-- Bit `j` of the binary representation of an integer (sign-extended), as `0` or `1`. -/
def bitAt (z : Int) (j : Nat) : Int := z / 2 ^ j % 2

/-- The mirror image of the `m` low bits of `n`, as a number in `[0, 2^m)`. -/
def mirror : Nat → Int → Int
  | 0, _ => 0
  | m + 1, n => n % 2 * 2 ^ m + mirror m (n / 2)

/-- The sum of the terms OR-ed into the accumulator by the last `steps` iterations of the
loop of `reverseBits`, the first of them with counter `i`. -/
def mirrorAcc (n : Int) : Nat → Nat → Int
  | 0, _ => 0
  | steps + 1, i => wrapInt (bitAt n i * 2 ^ steps) + mirrorAcc n steps (i + 1)

/-- Division by a product of positive integers is iterated division. -/
theorem int_div_div (z a b : Int) (ha : 0 < a) (hb : 0 < b) : z / (a * b) = z / a / b := by
  have hab : 0 < a * b := Int.mul_pos ha hb
  have h1 := Int.emod_add_ediv z a
  have h2 := Int.emod_add_ediv (z / a) b
  have h3 := Int.emod_nonneg z (ne_of_gt ha)
  have h4 := Int.emod_lt_of_pos z ha
  have h5 := Int.emod_nonneg (z / a) (ne_of_gt hb)
  have h6 := Int.emod_lt_of_pos (z / a) hb
  have key := (@Int.ediv_emod_unique z (a * b) (z % a + a * (z / a % b))
    (z / a / b) hab).2 ⟨by
      have : a * (z / a) = a * (z / a % b) + a * (b * (z / a / b)) := by rw [← mul_add, h2]
      linarith, by positivity, by nlinarith⟩
  exact key.1

theorem nat_ldiff_zero_left (a : Nat) : Nat.ldiff 0 a = 0 := by
  apply Nat.eq_of_testBit_eq; intro k
  simp [Nat.testBit_ldiff]

theorem nat_ldiff_zero_right (a : Nat) : Nat.ldiff a 0 = a := by
  apply Nat.eq_of_testBit_eq; intro k
  rw [Nat.testBit_ldiff]; simp

theorem land_zero_right (z : Int) : Int.land z 0 = 0 := by
  cases z <;> simp [Int.land, nat_ldiff_zero_left]

theorem lor_zero_right (z : Int) : Int.lor z 0 = z := by
  cases z with
  | ofNat m => simp [Int.lor]
  | negSucc m =>
    show Int.negSucc (Nat.ldiff m 0) = _
    rw [nat_ldiff_zero_right]

theorem lor_zero_left (z : Int) : Int.lor 0 z = z := by
  cases z with
  | ofNat m => simp [Int.lor]
  | negSucc m =>
    show Int.negSucc (Nat.ldiff m 0) = _
    rw [nat_ldiff_zero_right]

/-- The expression `z & 1` is the remainder of `z` modulo 2. -/
theorem land_one (z : Int) : Int.land z 1 = z % 2 := by
  have h1 : (1 : Int) = Int.bit true 0 := by simp [Int.bit_val]
  have hz := Int.bit_decomp z
  conv_lhs => rw [← hz, h1, Int.land_bit, land_zero_right]
  have hz2 := Int.bodd_add_div2 z
  rw [Int.bit_val]
  cases hb : Int.bodd z <;> simp [hb] at hz2 ⊢ <;> omega

/-- OR-ing a bit at position `e` into a multiple of `2^(e+1)` adds it. -/
theorem lor_low_bit (e : Nat) : ∀ (a b : Int), (b = 0 ∨ b = 1) →
    Int.lor (2 ^ (e + 1) * a) (b * 2 ^ e) = 2 ^ (e + 1) * a + b * 2 ^ e := by
  induction e with
  | zero =>
    intro a b hb
    have h1 : (2:Int) ^ (0 + 1) * a = Int.bit false a := by simp [Int.bit_val]
    rcases hb with rfl | rfl
    · have h2 : (0:Int) * 2 ^ 0 = Int.bit false 0 := by simp [Int.bit_val]
      rw [h1, h2, Int.lor_bit, lor_zero_right]; simp [Int.bit_val]
    · have h2 : (1:Int) * 2 ^ 0 = Int.bit true 0 := by simp [Int.bit_val]
      rw [h1, h2, Int.lor_bit, lor_zero_right]; simp [Int.bit_val]
  | succ e ih =>
    intro a b hb
    have h1 : (2:Int) ^ (e + 1 + 1) * a = Int.bit false (2 ^ (e + 1) * a) := by
      simp [Int.bit_val]; ring
    have h2 : b * 2 ^ (e + 1) = Int.bit false (b * 2 ^ e) := by
      simp [Int.bit_val]; ring
    rw [h1, h2, Int.lor_bit, ih a b hb]
    simp [Int.bit_val]; ring

/-- The library bit test agrees with `bitAt`. -/
theorem testBit_eq_bitAt (j : Nat) : ∀ z : Int, Int.testBit z j = decide (bitAt z j = 1) := by
  unfold bitAt
  induction j with
  | zero =>
    intro z
    have hz := Int.bit_decomp z
    have hz2 := Int.bodd_add_div2 z
    conv_lhs => rw [← hz, Int.testBit_bit_zero]
    cases hb : Int.bodd z <;> simp [hb] at hz2 ⊢ <;> omega
  | succ j ih =>
    intro z
    have hz := Int.bit_decomp z
    conv_lhs => rw [← hz, Int.testBit_bit_succ, ih]
    have : z / 2 ^ (j + 1) = Int.div2 z / 2 ^ j := by
      rw [Int.div2_val, pow_succ, mul_comm, int_div_div _ _ _ (by norm_num) (by positivity)]
    rw [this]

theorem bitAt_cases (z : Int) (j : Nat) : bitAt z j = 0 ∨ bitAt z j = 1 :=
  Int.emod_two_eq _

theorem wrapInt_of_lt (x : Int) (h0 : -2147483648 ≤ x) (h1 : x < 2147483648) : wrapInt x = x := by
  unfold wrapInt; omega

theorem wrapInt_range (z : Int) : -2147483648 ≤ wrapInt z ∧ wrapInt z < 2147483648 := by
  unfold wrapInt; omega

theorem pow_le_30 (s : Nat) (h : s ≤ 30) : (2:Int) ^ s ≤ 1073741824 := by
  have : (2:Int) ^ s ≤ 2 ^ 30 := pow_le_pow_right₀ (by norm_num) h
  norm_num at this; exact this

theorem pow_lt_of_size (k : ℕ) (hk : (2 : Int) ^ k + 1 < 2 ^ 31) : k ≤ 30 := by
  by_contra hcon
  have h31 : 31 ≤ k := by omega
  have : (2 : Int) ^ 31 ≤ 2 ^ k := pow_le_pow_right₀ (by norm_num) h31
  omega

/-! ## Closed form of `reverseBits` -/

/-- The loop of `reverseBits`, for a width of at most 32: it never meets an undefined shift
and adds the remaining terms to the accumulator. -/
theorem reverseBitsLoop_eq (n : Int) (m : Nat) (hm : m ≤ 32) :
    ∀ (steps i : Nat) (acc : Int), i + steps = m → (i = 0 → acc = 0) →
      (2:Int) ^ steps ∣ acc →
      reverseBitsLoop n m steps i acc = some (acc + mirrorAcc n steps i) := by
  intro steps
  induction steps with
  | zero => intro i acc _ _ _; simp [reverseBitsLoop, mirrorAcc]
  | succ s ih =>
    intro i acc him h0 hdvd
    have hi : (i : Int) < 32 := by omega
    have hsr : shiftRightInt n i = some (n / 2 ^ i) := by
      unfold shiftRightInt
      rw [if_pos ⟨by omega, hi⟩, Int.toNat_natCast, Int.shiftRight_eq_div_pow]
      simp
    have hcount : (m : Int) - 1 - i = (s : Int) := by omega
    have hsl : shiftLeftInt (Int.land (n / 2 ^ i) 1) ((m : Int) - 1 - i)
        = some (wrapInt (bitAt n i * 2 ^ s)) := by
      unfold shiftLeftInt
      rw [hcount, if_pos ⟨by omega, by omega⟩, Int.shiftLeft_eq_mul_pow, land_one]
      simp [bitAt]
    have hlor : Int.lor acc (wrapInt (bitAt n i * 2 ^ s)) = acc + wrapInt (bitAt n i * 2 ^ s) := by
      by_cases hs : s ≤ 30
      · have hp := pow_le_30 s hs
        have hpos : (0:Int) < 2 ^ s := by positivity
        have hw : wrapInt (bitAt n i * 2 ^ s) = bitAt n i * 2 ^ s := by
          apply wrapInt_of_lt
          · rcases bitAt_cases n i with h | h <;> rw [h] <;> omega
          · rcases bitAt_cases n i with h | h <;> rw [h] <;> omega
        obtain ⟨a, rfl⟩ := hdvd
        rw [hw]
        exact lor_low_bit s a _ (bitAt_cases n i)
      · have : i = 0 := by omega
        rw [h0 this, lor_zero_left]; simp
    have hdvd2 : (2:Int) ^ s ∣ acc + wrapInt (bitAt n i * 2 ^ s) := by
      apply dvd_add
      · exact dvd_trans (pow_dvd_pow 2 (Nat.le_succ s)) hdvd
      · by_cases hs : s ≤ 30
        · have hp := pow_le_30 s hs
          have hpos : (0:Int) < 2 ^ s := by positivity
          rw [wrapInt_of_lt]
          · exact Dvd.intro_left _ rfl
          · rcases bitAt_cases n i with h | h <;> rw [h] <;> omega
          · rcases bitAt_cases n i with h | h <;> rw [h] <;> omega
        · have hs31 : s = 31 := by omega
          subst hs31
          rcases bitAt_cases n i with h | h <;> rw [h] <;> norm_num [wrapInt]
    rw [reverseBitsLoop, hsr]
    simp only [hsl]
    have := ih (i + 1) (acc + wrapInt (bitAt n i * 2 ^ s)) (by omega) (by omega) hdvd2
    rw [hlor]
    push_cast at this
    rw [this, mirrorAcc]; ring_nf

theorem bitAt_half (n : Int) (i : Nat) : bitAt (n / 2) i = bitAt n (i + 1) := by
  unfold bitAt
  rw [pow_succ, mul_comm, int_div_div _ _ _ (by norm_num) (by positivity)]

theorem bitAt_zero (n : Int) : bitAt n 0 = n % 2 := by simp [bitAt]

theorem mirror_nonneg : ∀ (m : Nat) (n : Int), 0 ≤ mirror m n := by
  intro m
  induction m with
  | zero => intro n; simp [mirror]
  | succ m ih =>
    intro n
    rw [mirror]
    have := ih (n / 2)
    have h2 : 0 ≤ n % 2 := Int.emod_nonneg _ (by norm_num)
    positivity

theorem mirror_lt : ∀ (m : Nat) (n : Int), mirror m n < 2 ^ m := by
  intro m
  induction m with
  | zero => intro n; simp [mirror]
  | succ m ih =>
    intro n
    rw [mirror, pow_succ]
    have := ih (n / 2)
    have hpos : (0:Int) < 2 ^ m := by positivity
    rcases Int.emod_two_eq n with h | h <;> rw [h] <;> omega

theorem mirrorAcc_eq (n : Int) : ∀ (steps i : Nat), steps ≤ 31 →
    mirrorAcc n steps i = mirror steps (n / 2 ^ i) := by
  intro steps
  induction steps with
  | zero => intro i _; simp [mirrorAcc, mirror]
  | succ s ih =>
    intro i hs
    have hp := pow_le_30 s (by omega)
    have hpos : (0:Int) < 2 ^ s := by positivity
    rw [mirrorAcc, mirror, ih (i + 1) (by omega), wrapInt_of_lt]
    · have : n / 2 ^ (i + 1) = n / 2 ^ i / 2 := by
        rw [pow_succ, int_div_div _ _ _ (by positivity) (by norm_num)]
      rw [this]; rfl
    · rcases bitAt_cases n i with h | h <;> rw [h] <;> omega
    · rcases bitAt_cases n i with h | h <;> rw [h] <;> omega

/-- Closed form of `reverseBits` for a width of at most 32. -/
theorem reverseBits_eq (n : Int) (m : Nat) (hm : m ≤ 32) :
    reverseBits n m = some (wrapInt (mirror m n)) := by
  unfold reverseBits
  rw [Int.toNat_natCast]
  have h := reverseBitsLoop_eq n m hm m 0 0 (by omega) (fun _ => rfl) (dvd_zero _)
  have h' : reverseBitsLoop n (m : Int) m ((0 : Nat) : Int) 0 = reverseBitsLoop n (m : Int) m 0 0 := rfl
  rw [← h', h]
  congr 1
  cases m with
  | zero => simp [mirrorAcc, mirror, wrapInt]
  | succ s =>
    rw [mirrorAcc, mirror, mirrorAcc_eq n s 1 (by omega), bitAt_zero, pow_one, zero_add]
    have hM0 := mirror_nonneg s (n / 2)
    have hM1 := mirror_lt s (n / 2)
    by_cases hs : s ≤ 30
    · have hp := pow_le_30 s hs
      have hpos : (0:Int) < 2 ^ s := by positivity
      rw [wrapInt_of_lt, wrapInt_of_lt]
      all_goals rcases Int.emod_two_eq n with h | h <;> rw [h] <;> omega
    · have hs31 : s = 31 := by omega
      subst hs31
      norm_num at hM1 ⊢
      rcases Int.emod_two_eq n with h | h <;> rw [h] <;> unfold wrapInt <;> omega

/-- Closed form of `reverseBits` for a width of at most 31: no wrap-around. -/
theorem reverseBits_of_le_31 (n : Int) (m : Nat) (hm : m ≤ 31) :
    reverseBits n m = some (mirror m n) := by
  rw [reverseBits_eq n m (by omega), wrapInt_of_lt]
  · have := mirror_nonneg m n; omega
  · have h1 := mirror_lt m n
    have h2 : (2:Int) ^ m ≤ 2 ^ 31 := pow_le_pow_right₀ (by norm_num) hm
    norm_num at h2; omega

/-- For a width above 32 the first iteration shifts left by at least 32 positions. -/
theorem reverseBits_undefined (n : Int) (bit_range : Int) (h : 32 < bit_range) :
    reverseBits n bit_range = none := by
  unfold reverseBits
  obtain ⟨s, hs⟩ : ∃ s, bit_range.toNat = s + 1 := ⟨bit_range.toNat - 1, by omega⟩
  rw [hs, reverseBitsLoop]
  have hsr : shiftRightInt n 0 = some (n >>> (0:Int).toNat) := by simp [shiftRightInt]
  have hsl : ∀ a, shiftLeftInt a (bit_range - 1 - 0) = none := by
    intro a; unfold shiftLeftInt; rw [if_neg]; omega
  rw [hsr]; simp only [hsl]

theorem bitAt_add_mul (x y : Int) (j : Nat) : bitAt (x + y * 2 ^ (j + 1)) j = bitAt x j := by
  unfold bitAt
  have h : x + y * 2 ^ (j + 1) = x + (y * 2) * 2 ^ j := by rw [pow_succ]; ring
  rw [h, Int.add_mul_ediv_right _ _ (by positivity), Int.add_mul_emod_self]

theorem bitAt_add_pow (x b : Int) (j m : Nat) (h : j < m) :
    bitAt (b * 2 ^ m + x) j = bitAt x j := by
  have : b * 2 ^ m + x = x + (b * 2 ^ (m - j - 1)) * 2 ^ (j + 1) := by
    rw [mul_assoc, ← pow_add, show m - j - 1 + (j + 1) = m by omega]; ring
  rw [this, bitAt_add_mul]

theorem bitAt_wrapInt (x : Int) (j : Nat) (h : j < 32) : bitAt (wrapInt x) j = bitAt x j := by
  have hw : wrapInt x = (-((x + 2147483648) / 4294967296)) * 2 ^ 32 + x := by
    unfold wrapInt; norm_num; omega
  rw [hw, bitAt_add_pow _ _ _ _ h]

theorem bitAt_top (x b : Int) (m : Nat) (hb : b = 0 ∨ b = 1) (h0 : 0 ≤ x) (h1 : x < 2 ^ m) :
    bitAt (b * 2 ^ m + x) m = b := by
  unfold bitAt
  rw [add_comm, Int.add_mul_ediv_right _ _ (by positivity), Int.ediv_eq_zero_of_lt h0 h1]
  rcases hb with rfl | rfl <;> simp

/-- Bit `j` of the mirror image is bit `m - 1 - j` of the argument. -/
theorem bitAt_mirror : ∀ (m : Nat) (n : Int) (j : Nat), j < m →
    bitAt (mirror m n) j = bitAt n (m - 1 - j) := by
  intro m
  induction m with
  | zero => intro n j h; omega
  | succ m ih =>
    intro n j hj
    rw [mirror]
    by_cases hjm : j < m
    · rw [bitAt_add_pow _ _ _ _ hjm, ih _ _ hjm, bitAt_half]
      congr 1; omega
    · have : j = m := by omega
      subst this
      rw [bitAt_top _ _ _ (Int.emod_two_eq n) (mirror_nonneg _ _) (mirror_lt _ _)]
      simp [bitAt]

/-- Two numbers of `[0, 2^m)` with the same `m` low bits are equal. -/
theorem eq_of_bitAt_eq : ∀ (m : Nat) (x y : Int), 0 ≤ x → x < 2 ^ m → 0 ≤ y → y < 2 ^ m →
    (∀ j, j < m → bitAt x j = bitAt y j) → x = y := by
  intro m
  induction m with
  | zero => intro x y hx0 hx1 hy0 hy1 _; simp at hx1 hy1; omega
  | succ m ih =>
    intro x y hx0 hx1 hy0 hy1 hbits
    rw [pow_succ] at hx1 hy1
    have h0 := hbits 0 (by omega)
    rw [bitAt_zero, bitAt_zero] at h0
    have hhalf : x / 2 = y / 2 := by
      apply ih
      · omega
      · omega
      · omega
      · omega
      · intro j hj
        rw [bitAt_half, bitAt_half]
        exact hbits (j + 1) (by omega)
    omega

/-- Mirroring twice is the identity on `[0, 2^m)`. -/
theorem mirror_mirror (m : Nat) (n : Int) (h0 : 0 ≤ n) (h1 : n < 2 ^ m) :
    mirror m (mirror m n) = n := by
  apply eq_of_bitAt_eq m _ _ (mirror_nonneg _ _) (mirror_lt _ _) h0 h1
  intro j hj
  rw [bitAt_mirror m _ j hj, bitAt_mirror m n (m - 1 - j) (by omega)]
  congr 1; omega

theorem mirror_wrap (m : Nat) (hm : m ≤ 32) (z : Int) : mirror m (wrapInt z) = mirror m z := by
  apply eq_of_bitAt_eq m _ _ (mirror_nonneg _ _) (mirror_lt _ _) (mirror_nonneg _ _)
    (mirror_lt _ _)
  intro j hj
  rw [bitAt_mirror m _ j hj, bitAt_mirror m _ j hj, bitAt_wrapInt _ _ (by omega)]

theorem commitLoop_apply {α : Type} [Zero α] (rank c : Int) (tr ti : List α) (st : Shared α) :
    ∀ (n : Nat) (i : Int),
      ((List.range n).foldl (fun acc b =>
        ({ seq_real := rput (tr.getD b 0) acc.seq_real (b_rank rank c b),
           seq_img := rput (ti.getD b 0) acc.seq_img (b_rank rank c b) } : Shared α)) st).seq_real i
        = (if b_rank rank c 0 ≤ i ∧ i < b_rank rank c 0 + n
            then tr.getD (i - b_rank rank c 0).toNat 0 else st.seq_real i) ∧
      ((List.range n).foldl (fun acc b =>
        ({ seq_real := rput (tr.getD b 0) acc.seq_real (b_rank rank c b),
           seq_img := rput (ti.getD b 0) acc.seq_img (b_rank rank c b) } : Shared α)) st).seq_img i
        = (if b_rank rank c 0 ≤ i ∧ i < b_rank rank c 0 + n
            then ti.getD (i - b_rank rank c 0).toNat 0 else st.seq_img i) := by
  intro n
  induction n with
  | zero =>
    intro i
    have : ¬ (b_rank rank c 0 ≤ i ∧ i < b_rank rank c 0 + ((0 : Nat) : Int)) := by omega
    simp only [List.range_zero, List.foldl_nil]
    rw [if_neg this, if_neg this]
    exact ⟨rfl, rfl⟩
  | succ n ih =>
    intro i
    rw [List.range_succ, List.foldl_append]
    simp only [List.foldl_cons, List.foldl_nil, rput]
    have hb : b_rank rank c (n : Int) = b_rank rank c 0 + n := by unfold b_rank; ring
    rw [hb, (ih i).1, (ih i).2]
    by_cases h : i = b_rank rank c 0 + n
    · have h1 : b_rank rank c 0 ≤ i ∧ i < b_rank rank c 0 + ((n + 1 : Nat) : Int) := by
        push_cast; omega
      have h2 : (i - b_rank rank c 0).toNat = n := by omega
      rw [if_pos h, if_pos h, if_pos h1, if_pos h1, h2]
      exact ⟨rfl, rfl⟩
    · rw [if_neg h, if_neg h]
      by_cases h1 : b_rank rank c 0 ≤ i ∧ i < b_rank rank c 0 + (n : Int)
      · have h2 : b_rank rank c 0 ≤ i ∧ i < b_rank rank c 0 + ((n + 1 : Nat) : Int) := by
          push_cast; omega
        rw [if_pos h1, if_pos h1, if_pos h2, if_pos h2]
        exact ⟨rfl, rfl⟩
      · have h2 : ¬ (b_rank rank c 0 ≤ i ∧ i < b_rank rank c 0 + ((n + 1 : Nat) : Int)) := by
          push_cast; omega
        rw [if_neg h1, if_neg h1, if_neg h2, if_neg h2]
        exact ⟨rfl, rfl⟩

/-- The arrays after the commit loop of one process. -/
theorem commitPhase_apply {α : Type} [Zero α] (rank c : Int) (tr ti : List α) (st : Shared α)
    (hc : 0 ≤ c) (i : Int) :
    (commitPhase rank c tr ti st).seq_real i
        = (if b_rank rank c 0 ≤ i ∧ i < b_rank rank c 0 + c
            then tr.getD (i - b_rank rank c 0).toNat 0 else st.seq_real i) ∧
    (commitPhase rank c tr ti st).seq_img i
        = (if b_rank rank c 0 ≤ i ∧ i < b_rank rank c 0 + c
            then ti.getD (i - b_rank rank c 0).toNat 0 else st.seq_img i) := by
  have h := commitLoop_apply rank c tr ti st c.toNat i
  rw [Int.toNat_of_nonneg hc] at h
  exact h

theorem is_even_eq (b d : Int) (hd : 0 < d) (hb : 1 ≤ b) :
    is_even b d = ((b - 1) / d + 1) % 2 := by
  unfold is_even
  have h1 : Int.tdiv (b + d - 1) d = (b + d - 1) / d :=
    Int.tdiv_eq_ediv (by omega) (by omega)
  have h2 : (b + d - 1) / d = (b - 1) / d + 1 := by
    have : b + d - 1 = (b - 1) + 1 * d := by ring
    rw [this, Int.add_mul_ediv_right _ _ (by omega)]
  have h3 : 0 ≤ (b - 1) / d := Int.ediv_nonneg (by omega) (by omega)
  rw [h1, h2, Int.tmod_eq_emod (by omega) (by norm_num)]

/-- The two offsets read for `b`, in terms of the block and the position inside the block. -/
theorem partners_eq (b d : Int) (hd : 0 < d) (hb : 1 ≤ b) :
    odd_partner b d = 2 * d * ((b - 1) / (2 * d)) + (b - 1) % d + 1 ∧
    even_partner b d = 2 * d * ((b - 1) / (2 * d)) + (b - 1) % d + 1 + d := by
  unfold odd_partner even_partner is_odd
  rw [is_even_eq b d hd hb]
  have hdiv : (b - 1) / (2 * d) = (b - 1) / d / 2 := by
    rw [mul_comm, int_div_div _ _ _ hd (by norm_num)]
  have h1 := Int.emod_add_ediv (b - 1) d
  have h2 := Int.emod_add_ediv ((b - 1) / d) 2
  rw [hdiv]
  generalize (b - 1) / d = h at *
  generalize (b - 1) % d = r at *
  have h3 : d * h = d * (h % 2) + 2 * d * (h / 2) := by
    have : d * h = d * (h % 2 + 2 * (h / 2)) := by rw [h2]
    rw [this]; ring
  rcases Int.emod_two_eq h with he | he
  · have he' : (h + 1) % 2 = 1 := by omega
    rw [he'] 
    rw [he] at h3
    constructor <;> linarith
  · have he' : (h + 1) % 2 = 0 := by omega
    rw [he']
    rw [he] at h3
    constructor <;> linarith

/-! ## Seeding and the stage loop -/

/-- The arrays after the seeding loop, for a width of at most 32. -/
theorem seedLoop_apply {α : Type} [Zero α] (input : List α) (beyond : Int → α) (m : Nat)
    (hm : m ≤ 32) :
    ∀ (steps : Nat) (i0 : Int) (st : Shared α),
      ∃ st', seedLoop input beyond m steps i0 st = some st' ∧
        ∀ i : Int,
          st'.seq_real i = (if i0 ≤ i ∧ i < i0 + steps
            then readInput input beyond (wrapInt (mirror m (i - 1)) + 1) else st.seq_real i) ∧
          st'.seq_img i = (if i0 ≤ i ∧ i < i0 + steps then 0 else st.seq_img i) := by
  intro steps
  induction steps with
  | zero =>
    intro i0 st
    refine ⟨st, rfl, fun i => ?_⟩
    have : ¬ (i0 ≤ i ∧ i < i0 + ((0 : Nat) : Int)) := by omega
    rw [if_neg this, if_neg this]
    exact ⟨rfl, rfl⟩
  | succ n ih =>
    intro i0 st
    rw [seedLoop, reverseBits_eq (i0 - 1) m hm]
    obtain ⟨st', hst', hval⟩ := ih (i0 + 1)
      { seq_real := rput (readInput input beyond (wrapInt (mirror m (i0 - 1)) + 1)) st.seq_real i0,
        seq_img := rput 0 st.seq_img i0 }
    refine ⟨st', hst', fun i => ?_⟩
    rw [(hval i).1, (hval i).2]
    simp only [rput]
    by_cases h1 : i0 + 1 ≤ i ∧ i < i0 + 1 + (n : Int)
    · have h2 : i0 ≤ i ∧ i < i0 + ((n + 1 : Nat) : Int) := by push_cast; omega
      rw [if_pos h1, if_pos h1, if_pos h2, if_pos h2]
      exact ⟨rfl, rfl⟩
    · rw [if_neg h1, if_neg h1]
      by_cases h3 : i = i0
      · have h2 : i0 ≤ i ∧ i < i0 + ((n + 1 : Nat) : Int) := by push_cast; omega
        rw [if_pos h3, if_pos h3, if_pos h2, if_pos h2, h3]
        exact ⟨rfl, rfl⟩
      · have h2 : ¬ (i0 ≤ i ∧ i < i0 + ((n + 1 : Nat) : Int)) := by push_cast; omega
        rw [if_neg h3, if_neg h3, if_neg h2, if_neg h2]
        exact ⟨rfl, rfl⟩

theorem log2f_pow (k : Nat) : log2f (2 ^ k) = k := by
  unfold log2f
  have : ((2 : Int) ^ k).toNat = 2 ^ k := by
    have : ((2 : Int) ^ k) = ((2 ^ k : Nat) : Int) := by push_cast; rfl
    rw [this, Int.toNat_natCast]
  rw [this, Nat.log_pow (by norm_num)]

theorem log2f_pow_succ (k : Nat) (hk : 1 ≤ k) : log2f (2 ^ k + 1) = k := by
  unfold log2f
  have : ((2 : Int) ^ k + 1).toNat = 2 ^ k + 1 := by
    have : ((2 : Int) ^ k + 1) = ((2 ^ k + 1 : Nat) : Int) := by push_cast; rfl
    rw [this, Int.toNat_natCast]
  rw [this]
  congr 1
  apply Nat.log_eq_of_pow_le_of_lt_pow
  · omega
  · rw [pow_succ]
    have : 2 ≤ 2 ^ k := by
      calc 2 = 2 ^ 1 := by norm_num
        _ ≤ 2 ^ k := Nat.pow_le_pow_right (by norm_num) hk
    omega

theorem log2f_two : log2f 2 = 1 := by
  unfold log2f; simp [Nat.log]

/-- The arrays after seeding an input of `2^k + 1` elements. -/
theorem seed_apply {α : Type} [Zero α] (input : List α) (beyond : Int → α) (init : Shared α)
    (k : Nat) (hlen : input.length = 2 ^ k + 1) (hk : k ≤ 31) :
    ∃ st, seed input beyond (input.length : Int) init = some st ∧
      ∀ i : Int, 0 ≤ i → i ≤ 2 ^ k →
        st.seq_real i = readInput input beyond
          (wrapInt (mirror (log2f (2 ^ k + 1)).toNat (i - 1)) + 1) ∧
        st.seq_img i = 0 := by
  have hsize : (input.length : Int) = 2 ^ k + 1 := by
    rw [hlen]; push_cast; rfl
  have hm : (log2f (2 ^ k + 1)).toNat ≤ 32 := by
    rcases Nat.eq_zero_or_pos k with h0 | hpos
    · subst h0; norm_num [log2f_two]
    · rw [log2f_pow_succ k hpos]; simp; omega
  have hcast : log2f (2 ^ k + 1) = (((log2f (2 ^ k + 1)).toNat : Nat) : Int) := by
    rw [Int.toNat_of_nonneg]
    unfold log2f; positivity
  unfold seed
  rw [hsize]
  obtain ⟨st, hst, hval⟩ := seedLoop_apply input beyond _ hm
    ((2 : Int) ^ k + 1).toNat 0 init
  refine ⟨st, ?_, fun i hi0 hi1 => ?_⟩
  · rw [← hcast] at hst
    exact hst
  · have hpos : (0 : Int) < 2 ^ k := by positivity
    have hin : (0 : Int) ≤ i ∧ i < 0 + ((((2 : Int) ^ k + 1).toNat : Nat) : Int) := by
      rw [Int.toNat_of_nonneg (by omega)]; omega
    have := hval i
    rw [if_pos hin, if_pos hin] at this
    exact this

/-- The stage loop visits the spans `div, 2 * div, 4 * div, ...`. -/
theorem stageLoop_trace {σ : Type} (body : Int → σ → σ) :
    ∀ (key : Nat) (div : Int) (st : σ) (log : List Int),
      stageLoop (fun d l => l ++ [d]) key div log
        = log ++ (List.range key).map (fun s => div * 2 ^ s) ∧
      stageLoop body key div st
        = ((List.range key).map (fun s => div * 2 ^ s)).foldl (fun acc d => body d acc) st := by
  intro key
  induction key with
  | zero => intro div st log; simp [stageLoop]
  | succ key ih =>
    intro div st log
    rw [stageLoop, stageLoop, (ih (div * 2) (body div st) (log ++ [div])).1,
      (ih (div * 2) (body div st) (log ++ [div])).2, List.range_succ_eq_map]
    simp only [List.map_cons, List.map_map, List.foldl_cons, List.append_assoc,
      List.singleton_append, pow_zero, mul_one]
    have : ((fun s => div * 2 ^ s) ∘ Nat.succ) = (fun s : ℕ => div * 2 * 2 ^ s) := by
      funext s; simp [pow_succ]; ring
    rw [this]
    exact ⟨rfl, rfl⟩

theorem stagesExecuted_eq (k : Nat) :
    stagesExecuted (2 ^ k + 1) = (List.range k).map (fun s => (2 : Int) ^ s) := by
  unfold stagesExecuted
  rw [add_sub_cancel_right, log2f_pow, Int.toNat_natCast,
    (stageLoop_trace (fun d (l : List Int) => l ++ [d]) k 1 [] []).1]
  simp

/-! ## Worker slices -/

/-- The slice of a rank is an interval. -/
theorem mem_ownedIndices (rank c i : Int) :
    i ∈ ownedIndices rank c ↔ (rank - 1) * c + 1 ≤ i ∧ i ≤ (rank - 1) * c + c := by
  unfold ownedIndices b_rank
  rw [List.mem_map]
  constructor
  · rintro ⟨b, hb, rfl⟩
    rw [List.mem_range] at hb
    omega
  · rintro ⟨h1, h2⟩
    refine ⟨(i - ((rank - 1) * c + 1)).toNat, ?_, ?_⟩
    · rw [List.mem_range]; omega
    · omega

/-- Enough slots give a covering configuration. -/
theorem covers_of_le (pc c N : Int) (hc : 0 < c) (hle : N ≤ (pc - 1) * c) : covers pc c N := by
  intro i hi1 hiN
  have h1 := Int.emod_add_ediv (i - 1) c
  have h2 := Int.emod_nonneg (i - 1) (ne_of_gt hc)
  have h3 := Int.emod_lt_of_pos (i - 1) hc
  have h4 : 0 ≤ (i - 1) / c := Int.ediv_nonneg (by omega) (by omega)
  refine ⟨(i - 1) / c + 1, ⟨by omega, ?_, ?_⟩, ?_⟩
  · by_contra hcon
    have hge : pc - 1 ≤ (i - 1) / c := by omega
    have : (pc - 1) * c ≤ (i - 1) / c * c := mul_le_mul_of_nonneg_right hge (by omega)
    have hcomm : (i - 1) / c * c = c * ((i - 1) / c) := by ring
    omega
  · rw [mem_ownedIndices]
    have hcomm : ((i - 1) / c + 1 - 1) * c = c * ((i - 1) / c) := by ring
    rw [hcomm]; omega
  · rintro rank ⟨_, _, hmem⟩
    rw [mem_ownedIndices] at hmem
    have := (@Int.ediv_emod_unique (i - 1) c (i - 1 - (rank - 1) * c)
      (rank - 1) hc).2 ⟨by ring, by omega, by omega⟩
    omega

/-- With at least two workers whose number divides `N = input_size - 1`, the constant
`values_per_process` is `N / w`, the slices of the ranks `1..w` contain exactly the indices
of `[1, N]`, and each of these indices lies in the slice of exactly one rank. -/
theorem worker_partition_exact (N w : Int) (hN : 1 ≤ N) (hw : 2 ≤ w) (hdiv : w ∣ N) :
    values_per_process (N + 1) w = N / w ∧
    (∀ i : Int, (∃ rank : Int, 1 ≤ rank ∧ rank < w + 1 ∧
        i ∈ ownedIndices rank (values_per_process (N + 1) w)) ↔ (1 ≤ i ∧ i ≤ N)) ∧
    covers (w + 1) (values_per_process (N + 1) w) N := by
  obtain ⟨q, rfl⟩ := hdiv
  have hq : 0 < q := by
    by_contra hcon
    have : w * q ≤ 0 := mul_nonpos_of_nonneg_of_nonpos (by omega) (by omega)
    omega
  have hc : values_per_process (w * q + 1) w = q := by
    unfold values_per_process
    rw [Int.tdiv_eq_ediv (by omega) (by omega), add_comm, Int.add_mul_ediv_left _ _ (by omega),
      Int.ediv_eq_zero_of_lt (by norm_num) (by omega)]
    simp
  have hNq : w * q / w = q := Int.mul_ediv_cancel_left _ (by omega)
  rw [hc, hNq]
  have hcov : covers (w + 1) q (w * q) := covers_of_le _ _ _ hq (by ring_nf; omega)
  refine ⟨rfl, fun i => ⟨?_, fun ⟨h1, h2⟩ => (hcov i h1 h2).exists⟩, hcov⟩
  rintro ⟨rank, hr1, hr2, hmem⟩
  rw [mem_ownedIndices] at hmem
  have h1 : 0 ≤ (rank - 1) * q := mul_nonneg (by omega) (by omega)
  have h2 : rank * q ≤ w * q := mul_le_mul_of_nonneg_right (by omega) (by omega)
  have h3 : (rank - 1) * q + q = rank * q := by ring
  omega

/-! ## Twiddle factors and the stage invariant -/

/-- C2 (failing input): with `input_size = 5` and a single worker (`process_count = 2`, which
divides `input_size - 1 = 4`), `values_per_process` is `5 / 1 = 5`, so rank 1 is assigned
the indices `1..5`; index `5` is outside `[1, input_size)`. -/
theorem single_worker_overrun :
    values_per_process 5 (2 - 1) = 5 ∧
    ownedIndices 1 (values_per_process 5 (2 - 1)) = [1, 2, 3, 4, 5] ∧
    (5 : Int) ∈ ownedIndices 1 (values_per_process 5 (2 - 1)) ∧
    ¬ ((1 : Int) ≤ 5 ∧ (5 : Int) < 5) := by
  decide

/-- C3 (failing input): with `input_size = 5` and `process_count = 3` the commit loop run by
rank 0 writes the cells at offsets `-1` and `0` of both shared arrays, storing the zeros of
its untouched temporary buffers over whatever was there. -/
theorem coordinator_commit_writes (div : Int) :
    ownedIndices 0 (values_per_process 5 (3 - 1)) = [-1, 0] ∧
    (commitPhase 0 (values_per_process 5 (3 - 1))
      (computePhase Real.pi Real.cos Real.sin ⟨fun _ => 1, fun _ => 1⟩ 0
        (values_per_process 5 (3 - 1)) div).1
      (computePhase Real.pi Real.cos Real.sin ⟨fun _ => 1, fun _ => 1⟩ 0
        (values_per_process 5 (3 - 1)) div).2
      ⟨fun _ => 1, fun _ => 1⟩).seq_real 0 = 0 ∧
    (commitPhase 0 (values_per_process 5 (3 - 1))
      (computePhase Real.pi Real.cos Real.sin ⟨fun _ => 1, fun _ => 1⟩ 0
        (values_per_process 5 (3 - 1)) div).1
      (computePhase Real.pi Real.cos Real.sin ⟨fun _ => 1, fun _ => 1⟩ 0
        (values_per_process 5 (3 - 1)) div).2
      ⟨fun _ => 1, fun _ => 1⟩).seq_img 0 = 0 := by
  have hv : values_per_process 5 (3 - 1) = 2 := by decide
  rw [hv]
  refine ⟨by decide, ?_, ?_⟩
  · have h := (@commitPhase_apply ℝ _ 0 2
      (computePhase Real.pi Real.cos Real.sin ⟨fun _ => 1, fun _ => 1⟩ 0 2 div).1
      (computePhase Real.pi Real.cos Real.sin ⟨fun _ => 1, fun _ => 1⟩ 0 2 div).2
      ⟨fun _ => 1, fun _ => 1⟩ (by norm_num) 0).1
    rw [h]
    simp [b_rank, computePhase]
  · have h := (@commitPhase_apply ℝ _ 0 2
      (computePhase Real.pi Real.cos Real.sin ⟨fun _ => 1, fun _ => 1⟩ 0 2 div).1
      (computePhase Real.pi Real.cos Real.sin ⟨fun _ => 1, fun _ => 1⟩ 0 2 div).2
      ⟨fun _ => 1, fun _ => 1⟩ (by norm_num) 0).2
    rw [h]
    simp [b_rank, computePhase]

/-! ## Bit reversal -/

/-- C4 (amended): for every width `0 ≤ bit_width ≤ 32` and every `int` value `index` with
`0 ≤ index < 2 ^ bit_width`, `reverseBits` is defined on `index`, and applying it to its own
result gives `index` back. -/
theorem reverseBits_involution (bit_width : Nat) (index : Int) (hw : bit_width ≤ 32)
    (h0 : 0 ≤ index) (h1 : index < 2 ^ bit_width) (hint : index < 2 ^ 31) :
    ∃ r, reverseBits index bit_width = some r ∧ reverseBits r bit_width = some index := by
  refine ⟨wrapInt (mirror bit_width index), reverseBits_eq index bit_width hw, ?_⟩
  rw [reverseBits_eq _ bit_width hw, mirror_wrap bit_width hw,
    mirror_mirror bit_width index h0 h1, wrapInt_of_lt _ (by omega) (by norm_num at hint; omega)]

theorem reverseBits_involution_witness :
    ∃ r, reverseBits 6 (3 : Nat) = some r ∧ reverseBits r (3 : Nat) = some 6 :=
  reverseBits_involution 3 6 (by norm_num) (by norm_num) (by norm_num) (by norm_num)

/-- C4 (counterexample): at `bit_width = 33` the value `index = 1` lies in
`[0, 2 ^ 33)`, yet the first iteration shifts left by 32 positions, which is undefined
for a 32-bit `int`; no result is produced, so the round trip does not return `index`. -/
theorem reverseBits_involution_fails :
    (0 : Int) ≤ 1 ∧ (1 : Int) < 2 ^ 33 ∧ reverseBits 1 33 = none ∧
      ¬ ∃ r, reverseBits 1 33 = some r ∧ reverseBits r 33 = some 1 := by
  have h : reverseBits 1 33 = none := reverseBits_undefined 1 33 (by norm_num)
  refine ⟨by norm_num, by norm_num, h, ?_⟩
  rintro ⟨r, hr, _⟩
  rw [h] at hr
  exact Option.noConfusion hr

/-- C5 (amended): for every `index` and every width `0 ≤ bit_width ≤ 32`, `reverseBits`
returns a value `r` in the range of `int` whose bit `j` (two's complement), for every
`j < bit_width`, is bit `bit_width - 1 - j` of `index`; any `index'` agreeing with `index`
on the bits below `bit_width` gives the same `r`; and for `bit_width ≤ 31` also
`0 ≤ r < 2 ^ bit_width`. -/
theorem reverseBits_mirror (bit_width : Nat) (index : Int) (hw : bit_width ≤ 32) :
    ∃ r, reverseBits index bit_width = some r ∧
      (-2 ^ 31 ≤ r ∧ r < 2 ^ 31) ∧
      (∀ j : Nat, j < bit_width → Int.testBit r j = Int.testBit index (bit_width - 1 - j)) ∧
      (∀ index' : Int, (∀ j : Nat, j < bit_width → Int.testBit index' j = Int.testBit index j) →
        reverseBits index' bit_width = some r) ∧
      (bit_width ≤ 31 → 0 ≤ r ∧ r < 2 ^ bit_width) := by
  refine ⟨wrapInt (mirror bit_width index), reverseBits_eq index bit_width hw, ?_, ?_, ?_, ?_⟩
  · have := wrapInt_range (mirror bit_width index)
    norm_num; exact this
  · intro j hj
    rw [testBit_eq_bitAt, testBit_eq_bitAt, bitAt_wrapInt _ _ (by omega),
      bitAt_mirror _ _ _ hj]
  · intro index' hbits
    rw [reverseBits_eq index' bit_width hw]
    congr 2
    apply eq_of_bitAt_eq bit_width _ _ (mirror_nonneg _ _) (mirror_lt _ _) (mirror_nonneg _ _)
      (mirror_lt _ _)
    intro j hj
    rw [bitAt_mirror _ _ _ hj, bitAt_mirror _ _ _ hj]
    have h := hbits (bit_width - 1 - j) (by omega)
    rw [testBit_eq_bitAt, testBit_eq_bitAt] at h
    rcases bitAt_cases index' (bit_width - 1 - j) with h1 | h1 <;>
      rcases bitAt_cases index (bit_width - 1 - j) with h2 | h2 <;>
      simp [h1, h2] at h ⊢
  · intro h31
    have h0 := mirror_nonneg bit_width index
    have h1 := mirror_lt bit_width index
    have h2 : (2 : Int) ^ bit_width ≤ 2 ^ 31 := pow_le_pow_right₀ (by norm_num) h31
    rw [wrapInt_of_lt _ (by omega) (by norm_num at h2; omega)]
    exact ⟨h0, h1⟩

theorem reverseBits_mirror_witness :
    ∃ r, reverseBits 6 (3 : Nat) = some r ∧
      (-2 ^ 31 ≤ r ∧ r < 2 ^ 31) ∧
      (∀ j : Nat, j < 3 → Int.testBit r j = Int.testBit 6 (3 - 1 - j)) ∧
      (∀ index' : Int, (∀ j : Nat, j < 3 → Int.testBit index' j = Int.testBit 6 j) →
        reverseBits index' (3 : Nat) = some r) ∧
      (3 ≤ 31 → 0 ≤ r ∧ r < 2 ^ 3) :=
  reverseBits_mirror 3 6 (by norm_num)

/-- C5 (counterexample): `reverseBits(1, 32)` moves bit 0 into the sign bit and returns
`-2147483648`, which is not in `[0, 2 ^ 32)`; and `reverseBits(1, 33)` has no defined result,
its first iteration shifting left by 32 positions. -/
theorem reverseBits_mirror_fails :
    reverseBits 1 32 = some (-2147483648) ∧ ¬ ((0 : Int) ≤ -2147483648) ∧
      reverseBits 1 33 = none := by
  refine ⟨?_, by norm_num, reverseBits_undefined 1 33 (by norm_num)⟩
  rw [show (32 : Int) = ((32 : Nat) : Int) from rfl, reverseBits_eq 1 32 (by norm_num)]
  decide

/-- C6: for `k ≥ 1` and `input_size = 2 ^ k + 1` (an `int`), the seeding loop terminates
normally and, for every logical position `i` in `[1, input_size)`, the shared real array
holds `input[i]` at position `reverseBits(i - 1, max_bit_width) + 1`, where
`max_bit_width = floor(log2(input_size))`. -/
theorem seed_bit_reversal {α : Type} [Zero α] (k : Nat) (input : List α) (beyond : Int → α)
    (init : Shared α) (hk : 1 ≤ k) (hsize : (2 : Int) ^ k + 1 < 2 ^ 31)
    (hlen : input.length = 2 ^ k + 1) :
    ∃ st, seed input beyond (input.length : Int) init = some st ∧
      ∀ i : Nat, 1 ≤ i → i < input.length →
        ∃ r, reverseBits ((i : Int) - 1) (log2f (input.length : Int)) = some r ∧
          input[i]? = some (st.seq_real (r + 1)) := by
  have hk30 := pow_lt_of_size k hsize
  obtain ⟨st, hst, hval⟩ := seed_apply input beyond init k hlen (by omega)
  refine ⟨st, hst, fun i hi1 hi2 => ?_⟩
  have hsz : (input.length : Int) = 2 ^ k + 1 := by rw [hlen]; push_cast; rfl
  have hiz : (i : Int) - 1 < 2 ^ k := by
    have : (i : Int) < input.length := by exact_mod_cast hi2
    omega
  have hM0 := mirror_nonneg k ((i : Int) - 1)
  have hM1 := mirror_lt k ((i : Int) - 1)
  have hp30 : (2 : Int) ^ k ≤ 2 ^ 30 := pow_le_pow_right₀ (by norm_num) hk30
  norm_num at hp30
  refine ⟨mirror k ((i : Int) - 1), ?_, ?_⟩
  · rw [hsz, log2f_pow_succ k hk, reverseBits_of_le_31 _ k (by omega)]
  · obtain ⟨hre, _⟩ := hval (mirror k ((i : Int) - 1) + 1) (by omega) (by omega)
    rw [log2f_pow_succ k hk, Int.toNat_natCast, add_sub_cancel_right,
      mirror_mirror k _ (by omega) hiz, wrapInt_of_lt _ (by omega) (by omega)] at hre
    rw [hre]
    unfold readInput
    rw [if_pos (by omega)]
    have : ((i : Int) - 1 + 1).toNat = i := by omega
    rw [this, List.getD_eq_getElem _ _ hi2, List.getElem?_eq_getElem hi2]

theorem seed_bit_reversal_witness :
    ∃ st, seed [0, 10, 11] (fun _ => (0 : Int)) (([0, 10, 11] : List Int).length : Int)
        ⟨fun _ => 0, fun _ => 0⟩ = some st ∧
      ∀ i : Nat, 1 ≤ i → i < ([0, 10, 11] : List Int).length →
        ∃ r, reverseBits ((i : Int) - 1) (log2f (([0, 10, 11] : List Int).length : Int)) = some r ∧
          ([0, 10, 11] : List Int)[i]? = some (st.seq_real (r + 1)) :=
  seed_bit_reversal 1 [0, 10, 11] (fun _ => 0) ⟨fun _ => 0, fun _ => 0⟩ (by norm_num)
    (by norm_num) (by simp)

/-! ## Stage count and butterfly indexing -/

/-- C7: for every `k ≥ 0` and `input_size = 2 ^ k + 1` the stage loop of `main` runs its
body exactly `k` times, the `s`-th run (`s = 1..k`) with `div = 2 ^ (s - 1)`; the run of the
loop with any body is the successive application of the body at these spans. -/
theorem stage_count (k : Nat) :
    (stagesExecuted (2 ^ k + 1)).length = k ∧
    (∀ s : Nat, 1 ≤ s → s ≤ k → (stagesExecuted (2 ^ k + 1))[s - 1]? = some ((2 : Int) ^ (s - 1))) ∧
    (∀ (σ : Type) (body : Int → σ → σ) (st : σ),
      stageLoop body (log2f ((2 ^ k + 1) - 1)).toNat 1 st
        = (stagesExecuted (2 ^ k + 1)).foldl (fun acc d => body d acc) st) := by
  refine ⟨?_, ?_, ?_⟩
  · rw [stagesExecuted_eq]; simp
  · intro s hs1 hsk
    rw [stagesExecuted_eq, List.getElem?_map, List.getElem?_range (by omega)]
    rfl
  · intro σ body st
    rw [stagesExecuted_eq, add_sub_cancel_right, log2f_pow, Int.toNat_natCast,
      (stageLoop_trace body k 1 st []).2]
    simp

theorem stage_count_witness :
    (stagesExecuted (2 ^ 3 + 1))[2 - 1]? = some ((2 : Int) ^ (2 - 1)) :=
  (stage_count 3).2.1 2 (by norm_num) (by norm_num)

/-- C10: for `k ≥ 1`, `N = 2 ^ k`, a stage span `div = 2 ^ (s - 1)` with `1 ≤ s ≤ k` and
`b_rank` in `[1, N]`, the two indices read by the code, `odd_partner = b_rank - div * is_odd`
and `even_partner = b_rank + div * is_even`, are `j` and `j + div`, where `j` lies in the same
`2 * div`-aligned block as `b_rank`, in the first half of that block, and is congruent to
`b_rank` modulo `div`; exactly one of the two is `b_rank`, the other is `div` away, and both
lie in `[1, N]`. -/
theorem butterfly_partners (k s : Nat) (b : Int) (hs1 : 1 ≤ s) (hsk : s ≤ k)
    (hb1 : 1 ≤ b) (hbN : b ≤ 2 ^ k) :
    ∃ j : Int,
      odd_partner b (2 ^ (s - 1)) = j ∧ even_partner b (2 ^ (s - 1)) = j + 2 ^ (s - 1) ∧
      (j - 1) / (2 * 2 ^ (s - 1)) = (b - 1) / (2 * 2 ^ (s - 1)) ∧
      (j - 1) % (2 * 2 ^ (s - 1)) < 2 ^ (s - 1) ∧
      j % 2 ^ (s - 1) = b % 2 ^ (s - 1) ∧
      ((j = b ∧ j + 2 ^ (s - 1) ≠ b) ∨ (j ≠ b ∧ j + 2 ^ (s - 1) = b)) ∧
      1 ≤ j ∧ j + 2 ^ (s - 1) ≤ 2 ^ k := by
  have hd : (0 : Int) < 2 ^ (s - 1) := by positivity
  obtain ⟨hodd, heven⟩ := partners_eq b (2 ^ (s - 1)) hd hb1
  have hN : (2 : Int) ^ k = 2 * 2 ^ (s - 1) * 2 ^ (k - s) := by
    rw [← pow_succ', ← pow_add]; congr 1; omega
  have hQ : (0 : Int) < 2 ^ (k - s) := by positivity
  generalize (2 : Int) ^ (s - 1) = d at *
  generalize (2 : Int) ^ (k - s) = Q at *
  have h1 := Int.emod_add_ediv (b - 1) (2 * d)
  have h2 := Int.emod_nonneg (b - 1) (show 2 * d ≠ 0 by omega)
  have h4 := Int.emod_nonneg (b - 1) (ne_of_gt hd)
  have h5 := Int.emod_lt_of_pos (b - 1) hd
  have h6 : 0 ≤ (b - 1) / (2 * d) := Int.ediv_nonneg (by omega) (by omega)
  have hblk : (b - 1) / (2 * d) < Q := by
    apply Int.ediv_lt_of_lt_mul (by omega)
    rw [mul_comm]; omega
  have hmul : 2 * d * ((b - 1) / (2 * d)) + 2 * d ≤ 2 * d * Q := by
    have : (b - 1) / (2 * d) + 1 ≤ Q := by omega
    have := mul_le_mul_of_nonneg_left this (show (0 : Int) ≤ 2 * d by omega)
    linarith
  have hmul0 : 0 ≤ 2 * d * ((b - 1) / (2 * d)) := mul_nonneg (by omega) h6
  have hj : 2 * d * ((b - 1) / (2 * d)) + (b - 1) % d + 1 - 1
      = (b - 1) % d + ((b - 1) / (2 * d)) * (2 * d) := by ring
  have hmodd : (b - 1) % (2 * d) % d = (b - 1) % d :=
    Int.emod_emod_of_dvd _ (Dvd.intro_left 2 rfl)
  have h7 := Int.emod_add_ediv ((b - 1) % (2 * d)) d
  have h3 := Int.emod_lt_of_pos (b - 1) (show 0 < 2 * d by omega)
  have hdisj : (2 * d * ((b - 1) / (2 * d)) + (b - 1) % d + 1 = b ∧
        2 * d * ((b - 1) / (2 * d)) + (b - 1) % d + 1 + d ≠ b) ∨
      (2 * d * ((b - 1) / (2 * d)) + (b - 1) % d + 1 ≠ b ∧
        2 * d * ((b - 1) / (2 * d)) + (b - 1) % d + 1 + d = b) := by
    rw [hmodd] at h7
    have h8 : 0 ≤ (b - 1) % (2 * d) / d := Int.ediv_nonneg h2 (by omega)
    have h9 : (b - 1) % (2 * d) / d < 2 := Int.ediv_lt_of_lt_mul hd (by omega)
    have h10 : (b - 1) % (2 * d) / d = 0 ∨ (b - 1) % (2 * d) / d = 1 := by omega
    rcases h10 with h | h <;> rw [h] at h7 <;> omega
  refine ⟨2 * d * ((b - 1) / (2 * d)) + (b - 1) % d + 1, hodd, heven, ?_, ?_, ?_, hdisj, ?_, ?_⟩
  · rw [hj, Int.add_mul_ediv_right _ _ (by omega), Int.ediv_eq_zero_of_lt h4 (by omega)]
    simp
  · rw [hj, Int.add_mul_emod_self, Int.emod_eq_of_lt h4 (by omega)]
    exact h5
  · rcases hdisj with ⟨h, _⟩ | ⟨_, h⟩
    · rw [h]
    · conv_rhs => rw [← h]
      rw [Int.add_emod_self]
  · omega
  · omega

theorem butterfly_partners_witness :
    ∃ j : Int,
      odd_partner 7 (2 ^ (2 - 1)) = j ∧ even_partner 7 (2 ^ (2 - 1)) = j + 2 ^ (2 - 1) ∧
      (j - 1) / (2 * 2 ^ (2 - 1)) = (7 - 1) / (2 * 2 ^ (2 - 1)) ∧
      (j - 1) % (2 * 2 ^ (2 - 1)) < 2 ^ (2 - 1) ∧
      j % 2 ^ (2 - 1) = 7 % 2 ^ (2 - 1) ∧
      ((j = 7 ∧ j + 2 ^ (2 - 1) ≠ 7) ∨ (j ≠ 7 ∧ j + 2 ^ (2 - 1) = 7)) ∧
      1 ≤ j ∧ j + 2 ^ (2 - 1) ≤ 2 ^ 3 :=
  butterfly_partners 3 2 7 (by norm_num) (by norm_num) (by norm_num) (by norm_num)

end FFTParallel
